import Mathlib

/- Verification development for the DataQuest-2026 live-news RAG pipeline.

   The ingestion side (news_connector.py) and the startup checks (main.py)
   are embedded shallowly below: the polling generator becomes pure state
   passing over an explicit seen-URL list, one poll cycle becomes a fold
   over the configured category list, and every per-category outcome the
   Python code catches (timeout, transport error, malformed JSON, non-ok
   provider status) becomes a constructor of an explicit response type.

   The Vector Index search and the Query Engine answer path are delegated by
   the repository to the external pathway framework, whose code is not part
   of the repository; those two operations are modelled from the spec and
   marked as such in their doc comments. -/

namespace NewsRag

/-- Provider item as consumed by the connector (news_connector.py lines
64-79): each text field defaults to the empty string when the key is absent
(Python dict.get with empty default), and the source name is kept optional
because its absence defaults to the distinct string "Unknown". -/
structure RawArticle where
  title : String
  description : String
  url : String
  publishedAt : String
  sourceName : Option String
  deriving Repr, DecidableEq

/-- Emitted article record (news_connector.py lines 85-91). -/
structure Article where
  text : String
  url : String
  date : String
  source : String
  category : String
  deriving Repr, DecidableEq

/-- news_connector.py line 14. -/
def POLL_INTERVAL : Nat := 60

/-- news_connector.py line 15. -/
def CATEGORIES : List String := ["technology", "business"]

/-- news_connector.py line 82: the emitted text is the title followed by a
dot, a space and the description when the description is truthy, else the
title alone. -/
def mkText (title description : String) : String :=
  if description = "" then title else title ++ ". " ++ description

/-- news_connector.py lines 76-91: build the emitted record from one
provider item; a missing source name defaults to "Unknown". -/
def mkArticle (category : String) (a : RawArticle) : Article :=
  { text := mkText a.title a.description
    url := a.url
    date := a.publishedAt
    source := a.sourceName.getD "Unknown"
    category := category }

/-- Per-item loop of one ok response (news_connector.py lines 64-96): skip
an item whose URL is already seen or empty, otherwise record the URL in the
seen set first and then emit the built article. Returns the emitted
articles in order together with the updated seen set. -/
def processArticles (category : String) : List String → List RawArticle → List Article × List String
  | seen, [] => ([], seen)
  | seen, a :: rest =>
    if a.url ∈ seen ∨ a.url = "" then
      processArticles category seen rest
    else
      let out := processArticles category (a.url :: seen) rest
      (mkArticle category a :: out.1, out.2)

/-- Outcome of one category fetch inside a poll cycle: the three exception
classes caught per category (news_connector.py lines 103-114) or a parsed
JSON payload carrying the provider status and article list. -/
inductive CategoryResponse where
  | timeout
  | transportError
  | malformed
  | payload (status : String) (articles : List RawArticle)
  deriving Repr, DecidableEq

/-- A response the connector skips for one category: any caught exception,
or a payload whose status differs from ok (news_connector.py line 57). -/
def isTransientFailure : CategoryResponse → Bool
  | .timeout => true
  | .transportError => true
  | .malformed => true
  | .payload status _ => status != "ok"

/-- One category inside one poll cycle (news_connector.py lines 51-114): a
caught exception or a non-ok status yields no articles and leaves the seen
set unchanged; an ok payload runs the per-item loop. -/
def processCategory (category : String) (seen : List String) : CategoryResponse → List Article × List String
  | .payload status articles =>
    if status = "ok" then processArticles category seen articles
    else ([], seen)
  | _ => ([], seen)

/-- The per-cycle category loop (news_connector.py line 40), threading the
seen set through the categories in their configured order. -/
def runCategories (resp : String → CategoryResponse) : List String → List String → List Article × List String
  | seen, [] => ([], seen)
  | seen, c :: cs =>
    let r := processCategory c seen (resp c)
    let rest := runCategories resp r.2 cs
    (r.1 ++ rest.1, rest.2)

/-- One full poll cycle over the configured categories. -/
def runCycle (seen : List String) (resp : String → CategoryResponse) : List Article × List String :=
  runCategories resp seen CATEGORIES

/-- Any number of consecutive poll cycles (news_connector.py line 37),
threading the process-lifetime seen set. -/
def runCycles : List String → List (String → CategoryResponse) → List Article × List String
  | seen, [] => ([], seen)
  | seen, r :: rs =>
    let c := runCycle seen r
    let rest := runCycles c.2 rs
    (c.1 ++ rest.1, rest.2)

/-- Decidable check that the character list n occurs as a prefix of h. -/
def startsWithChars : List Char → List Char → Bool
  | [], _ => true
  | _ :: _, [] => false
  | a :: n, b :: h => a == b && startsWithChars n h

/-- Decidable substring check on character lists, the meaning of the Python
membership test on strings. -/
def hasSubstr (n : List Char) : List Char → Bool
  | [] => n.isEmpty
  | c :: rest => startsWithChars n (c :: rest) || hasSubstr n rest

/-- The character list n occurs contiguously inside h. -/
def occursIn (n h : List Char) : Prop := ∃ s t, h = s ++ n ++ t

/-- news_connector.py line 31 and main.py line 16: a configured key counts
as a placeholder when its character-wise lowercase form contains the marker
word. -/
def isPlaceholder (k : String) : Bool :=
  hasSubstr "your".toList (k.toList.map Char.toLower)

/-- The configuration guard shared by both entry points: the key is absent,
empty, or a placeholder. -/
def keyMissingOrPlaceholder : Option String → Bool
  | none => true
  | some k => k == "" || isPlaceholder k

/-- news_connector.py lines 32-35. -/
def NEWS_KEY_ERROR : String :=
  "NEWS_API_KEY not configured. Please set it in the .env file. Get your key from https://newsapi.org/register"

/-- main.py lines 17-20. -/
def GEMINI_KEY_ERROR : String :=
  "Please set your GEMINI_API_KEY in the .env file. Get your API key from https://aistudio.google.com/app/apikey"

/-- The connector entry point (news_connector.py lines 21-127): the
credential guard runs before the polling loop; with a valid key the stream
is the concatenation of the cycle outputs starting from an empty seen set. -/
def fetchNewsStream (key : Option String) (cycles : List (String → CategoryResponse)) :
    Except String (List Article × List String) :=
  if keyMissingOrPlaceholder key then Except.error NEWS_KEY_ERROR
  else Except.ok (runCycles [] cycles)

/-- main.py lines 14-20: the module-level credential guard runs before any
pipeline or server object is built, so a bad key means no traffic is served. -/
def mainStartup (geminiKey : Option String) : Except String String :=
  if keyMissingOrPlaceholder geminiKey then Except.error GEMINI_KEY_ERROR
  else Except.ok "serving"

/-- What one iteration of the outer while loop amounts to, seen from its
exception handlers (news_connector.py lines 37, 117-127): a normal cycle, an
unexpected exception caught by the broad handler, or a keyboard interrupt. -/
inductive CycleEvent where
  | normal (resp : String → CategoryResponse)
  | unexpectedError
  | keyboardInterrupt

/-- Control decision taken at the end of one outer-loop iteration. -/
inductive StepAction where
  | continueAfterPause (seconds : Nat)
  | stopLoop
  deriving Repr, DecidableEq

/-- news_connector.py lines 117-127: a normal cycle sleeps the poll interval
and continues; an unexpected exception is caught, sleeps the full poll
interval and continues; only a keyboard interrupt breaks the loop. -/
def loopStep : CycleEvent → StepAction
  | .normal _ => .continueAfterPause POLL_INTERVAL
  | .unexpectedError => .continueAfterPause POLL_INTERVAL
  | .keyboardInterrupt => .stopLoop

/-- The outer while loop over a sequence of iteration events: an unexpected
error contributes no articles and the loop resumes with the next event; a
keyboard interrupt stops the stream. -/
def runLoop : List String → List CycleEvent → List Article × List String
  | seen, [] => ([], seen)
  | seen, CycleEvent.normal resp :: es =>
    let c := runCycle seen resp
    let rest := runLoop c.2 es
    (c.1 ++ rest.1, rest.2)
  | seen, CycleEvent.unexpectedError :: es => runLoop seen es
  | seen, CycleEvent.keyboardInterrupt :: _ => ([], seen)

/-- Modelled from the spec: article metadata kept per retrieved chunk for
answer rendering (spec section 3, Answer references). The repository wires
this part to the pathway framework, whose code is not in the repository. -/
structure Reference where
  source : String
  date : String
  url : String
  deriving Repr, DecidableEq

/-- Modelled from the spec: IndexEntry (spec section 3) with its embedding
vector, the chunk text used for prompts, and the article reference. Vector
components are rationals so that the model stays executable. -/
structure IndexEntry where
  chunkId : Nat
  embedding : List Rat
  chunkText : String
  ref : Reference
  deriving Repr, DecidableEq

/-- Retrieval order on scored entries carrying their insertion position:
strictly higher similarity first, ties broken by smaller insertion index
(spec section 4.4, earlier wins). -/
def scoreRank (x y : (Nat × Rat) × IndexEntry) : Prop :=
  y.1.2 < x.1.2 ∨ (x.1.2 = y.1.2 ∧ x.1.1 ≤ y.1.1)

instance : DecidableRel scoreRank := fun x y => by
  unfold scoreRank; infer_instance

instance : IsTotal ((Nat × Rat) × IndexEntry) scoreRank where
  total x y := by
    rcases lt_trichotomy x.1.2 y.1.2 with h | h | h
    · exact Or.inr (Or.inl h)
    · rcases Nat.le_total x.1.1 y.1.1 with hle | hle
      · exact Or.inl (Or.inr ⟨h, hle⟩)
      · exact Or.inr (Or.inr ⟨h.symm, hle⟩)
    · exact Or.inl (Or.inl h)

instance : IsTrans ((Nat × Rat) × IndexEntry) scoreRank where
  trans a b c hab hbc := by
    rcases hab with hab | ⟨hab, hab2⟩
    · rcases hbc with hbc | ⟨hbc, _⟩
      · exact Or.inl (lt_trans hbc hab)
      · exact Or.inl (hbc ▸ hab)
    · rcases hbc with hbc | ⟨hbc, hbc2⟩
      · exact Or.inl (hab ▸ hbc)
      · exact Or.inr ⟨hab.trans hbc, Nat.le_trans hab2 hbc2⟩

/-- Modelled from the spec: brute-force k-nearest-neighbor search of the
Vector Index (spec section 4.4). Entries are scored against the query
vector, sorted by descending similarity with insertion-order tie break, and
the first k are kept. The similarity function is a parameter standing for
cosine similarity; the repository delegates this operation to the pathway
BruteForceKnn retriever, whose code is not in the repository. -/
def searchScored (sim : List Rat → List Rat → Rat) (entries : List IndexEntry)
    (v : List Rat) (k : Nat) : List ((Nat × Rat) × IndexEntry) :=
  (List.insertionSort scoreRank
    (entries.enum.map (fun p => ((p.1, sim v p.2.embedding), p.2)))).take k

/-- Modelled from the spec: the RetrievalResult view of a search, a sequence
of entry and similarity-score pairs in retrieval order (spec section 3). -/
def search (sim : List Rat → List Rat → Rat) (entries : List IndexEntry)
    (v : List Rat) (k : Nat) : List (IndexEntry × Rat) :=
  (searchScored sim entries v k).map (fun p => (p.2, p.1.2))

/-- Modelled from the spec: the Answer record (spec section 3). -/
structure Answer where
  text : String
  references : List Reference
  retrievedDocs : Nat
  deriving Repr, DecidableEq

/-- Modelled from the spec: the fixed no-context fallback answer with zero
references and zero retrieved documents (spec sections 4.5 and 8). -/
def FALLBACK_ANSWER : Answer :=
  { text := "no recent news on this topic", references := [], retrievedDocs := 0 }

/-- Modelled from the spec: the prompt context rendered from the retrieved
chunks and their source and date metadata (spec section 4.5 step 4). -/
def renderContext (retrieved : List (IndexEntry × Rat)) : String :=
  String.intercalate "; "
    (retrieved.map (fun p => p.1.chunkText ++ " [" ++ p.1.ref.source ++ " " ++ p.1.ref.date ++ "]"))

/-- Modelled from the spec: the Query Engine answer path (spec section 4.5).
The question is embedded, the index searched with k equal to 5 (main.py line
90 configures search_topk as 5); an empty retrieval takes the fallback
branch without touching the language model, otherwise the model is invoked
once on the rendered context and the references mirror retrieval order.
The repository delegates this operation to the pathway RAGQuestionAnswerer,
whose code is not in the repository. -/
def answer (sim : List Rat → List Rat → Rat) (embedFn : String → List Rat)
    (llm : String → String → String) (entries : List IndexEntry) (q : String) : Answer :=
  let retrieved := search sim entries (embedFn q) 5
  if retrieved.isEmpty then FALLBACK_ANSWER
  else
    { text := llm (renderContext retrieved) q
      references := retrieved.map (fun p => p.1.ref)
      retrievedDocs := retrieved.length }

/-- A concrete well-formed provider item (the spec section 8 scenario). -/
def rawSample : RawArticle :=
  { title := "AI Breakthrough"
    description := "New model released"
    url := "https://x.com/a"
    publishedAt := "2026-01-18T12:00:00Z"
    sourceName := some "Tech News" }

/-- A second well-formed item sharing the URL of rawSample. -/
def rawSampleB : RawArticle :=
  { title := "Same story, business angle"
    description := "Markets react"
    url := "https://x.com/a"
    publishedAt := "2026-01-18T13:00:00Z"
    sourceName := some "Biz News" }

/-- A provider item with empty title, description, timestamp and an
explicitly empty source name, but a valid URL. -/
def c3BadItem : RawArticle :=
  { title := ""
    description := ""
    url := "https://example.com/empty"
    publishedAt := ""
    sourceName := some "" }

/-- A cycle whose every category returns one ok payload with c3BadItem. -/
def c3Resp : String → CategoryResponse :=
  fun _ => CategoryResponse.payload "ok" [c3BadItem]

/-- A cycle whose every category returns one ok payload with rawSample. -/
def goodResp : String → CategoryResponse :=
  fun _ => CategoryResponse.payload "ok" [rawSample]

/-- A cycle offering the same URL under both configured categories. -/
def c10Resp : String → CategoryResponse := fun c =>
  if c = "technology" then CategoryResponse.payload "ok" [rawSample]
  else CategoryResponse.payload "ok" [rawSampleB]

/-- Every item of every ok payload reachable in the given cycles has a
non-empty title, a non-empty publication timestamp, and no explicitly
empty source name. -/
def okPayloadsWellFormed (cycles : List (String → CategoryResponse)) : Prop :=
  ∀ resp ∈ cycles, ∀ (c status : String) (items : List RawArticle),
    resp c = CategoryResponse.payload status items →
    ∀ raw ∈ items, raw.title ≠ "" ∧ raw.publishedAt ≠ "" ∧ raw.sourceName ≠ some ""

/-- Composing two processing phases preserves the seen-set bundle: output
URLs live in the final seen set and are fresh with respect to the initial
one, output URLs are pairwise distinct, the seen set only grows, and
distinctness of the seen set is preserved. -/
theorem comp_good {out1 out2 : List Article} {seen seen1 seen2 : List String}
    (fmono : ∀ u ∈ seen, u ∈ seen1)
    (fout : ∀ a ∈ out1, a.url ∈ seen1 ∧ a.url ∉ seen ∧ a.url ≠ "")
    (fnd : (out1.map Article.url).Nodup)
    (fsnd : seen.Nodup → seen1.Nodup)
    (gmono : ∀ u ∈ seen1, u ∈ seen2)
    (gout : ∀ a ∈ out2, a.url ∈ seen2 ∧ a.url ∉ seen1 ∧ a.url ≠ "")
    (gnd : (out2.map Article.url).Nodup)
    (gsnd : seen1.Nodup → seen2.Nodup) :
    (∀ u ∈ seen, u ∈ seen2) ∧
    (∀ a ∈ out1 ++ out2, a.url ∈ seen2 ∧ a.url ∉ seen ∧ a.url ≠ "") ∧
    (((out1 ++ out2).map Article.url).Nodup) ∧
    (seen.Nodup → seen2.Nodup) := by
  refine ⟨fun u hu => gmono u (fmono u hu), ?_, ?_, fun h => gsnd (fsnd h)⟩
  · intro a ha
    rcases List.mem_append.mp ha with h | h
    · obtain ⟨h1, h2, h3⟩ := fout a h
      exact ⟨gmono _ h1, h2, h3⟩
    · obtain ⟨h1, h2, h3⟩ := gout a h
      exact ⟨h1, fun hmem => h2 (fmono _ hmem), h3⟩
  · rw [List.map_append]
    refine List.nodup_append.mpr ⟨fnd, gnd, ?_⟩
    intro x hx hx2
    rcases List.mem_map.mp hx with ⟨a, ha, rfl⟩
    rcases List.mem_map.mp hx2 with ⟨b, hb, hba⟩
    exact (gout b hb).2.1 (by rw [hba]; exact (fout a ha).1)

/-- The per-item loop satisfies the seen-set bundle. -/
theorem pa_good (cat : String) : ∀ (items : List RawArticle) (seen : List String),
    (∀ u ∈ seen, u ∈ (processArticles cat seen items).2) ∧
    (∀ a ∈ (processArticles cat seen items).1,
        a.url ∈ (processArticles cat seen items).2 ∧ a.url ∉ seen ∧ a.url ≠ "") ∧
    ((processArticles cat seen items).1.map Article.url).Nodup ∧
    (seen.Nodup → (processArticles cat seen items).2.Nodup) := by
  intro items
  induction items with
  | nil =>
    intro seen
    refine ⟨fun u hu => hu, ?_, ?_, fun h => h⟩ <;> simp [processArticles]
  | cons a rest ih =>
    intro seen
    by_cases hc : a.url ∈ seen ∨ a.url = ""
    · have he : processArticles cat seen (a :: rest) = processArticles cat seen rest := by
        simp only [processArticles]
        rw [if_pos hc]
      rw [he]
      exact ih seen
    · push_neg at hc
      obtain ⟨hnm, hne⟩ := hc
      have he : processArticles cat seen (a :: rest)
          = (mkArticle cat a :: (processArticles cat (a.url :: seen) rest).1,
             (processArticles cat (a.url :: seen) rest).2) := by
        simp only [processArticles]
        rw [if_neg (by push_neg; exact ⟨hnm, hne⟩)]
      rw [he]
      obtain ⟨imono, iout, ind, isnd⟩ := ih (a.url :: seen)
      refine ⟨?_, ?_, ?_, ?_⟩
      · intro u hu
        exact imono u (List.mem_cons_of_mem _ hu)
      · intro b hb
        rcases List.mem_cons.mp hb with rfl | hb
        · exact ⟨imono _ (List.mem_cons_self _ _), hnm, hne⟩
        · obtain ⟨h1, h2, h3⟩ := iout b hb
          exact ⟨h1, fun hmem => h2 (List.mem_cons_of_mem _ hmem), h3⟩
      · rw [List.map_cons]
        refine List.nodup_cons.mpr ⟨?_, ind⟩
        intro hx
        rcases List.mem_map.mp hx with ⟨b, hb, hba⟩
        exact (iout b hb).2.1 (by rw [hba]; exact List.mem_cons_self _ _)
      · intro hnd
        exact isnd (List.nodup_cons.mpr ⟨hnm, hnd⟩)

/-- One category of one cycle satisfies the seen-set bundle. -/
theorem pc_good (cat : String) (r : CategoryResponse) (seen : List String) :
    (∀ u ∈ seen, u ∈ (processCategory cat seen r).2) ∧
    (∀ a ∈ (processCategory cat seen r).1,
        a.url ∈ (processCategory cat seen r).2 ∧ a.url ∉ seen ∧ a.url ≠ "") ∧
    ((processCategory cat seen r).1.map Article.url).Nodup ∧
    (seen.Nodup → (processCategory cat seen r).2.Nodup) := by
  cases r with
  | payload status arts =>
    by_cases hs : status = "ok"
    · simp only [processCategory, if_pos hs]
      exact pa_good cat arts seen
    · simp only [processCategory, if_neg hs]
      exact ⟨fun u hu => hu, by simp, by simp, fun h => h⟩
  | timeout => exact ⟨fun u hu => hu, by simp [processCategory], by simp [processCategory], fun h => h⟩
  | transportError => exact ⟨fun u hu => hu, by simp [processCategory], by simp [processCategory], fun h => h⟩
  | malformed => exact ⟨fun u hu => hu, by simp [processCategory], by simp [processCategory], fun h => h⟩

/-- The category loop of one cycle satisfies the seen-set bundle. -/
theorem rcats_good (resp : String → CategoryResponse) : ∀ (cats : List String) (seen : List String),
    (∀ u ∈ seen, u ∈ (runCategories resp seen cats).2) ∧
    (∀ a ∈ (runCategories resp seen cats).1,
        a.url ∈ (runCategories resp seen cats).2 ∧ a.url ∉ seen ∧ a.url ≠ "") ∧
    ((runCategories resp seen cats).1.map Article.url).Nodup ∧
    (seen.Nodup → (runCategories resp seen cats).2.Nodup) := by
  intro cats
  induction cats with
  | nil =>
    intro seen
    refine ⟨fun u hu => hu, ?_, ?_, fun h => h⟩ <;> simp [runCategories]
  | cons c cs ih =>
    intro seen
    have he : runCategories resp seen (c :: cs)
        = ((processCategory c seen (resp c)).1
            ++ (runCategories resp (processCategory c seen (resp c)).2 cs).1,
           (runCategories resp (processCategory c seen (resp c)).2 cs).2) := by
      simp only [runCategories]
    rw [he]
    obtain ⟨fmono, fout, fnd, fsnd⟩ := pc_good c (resp c) seen
    obtain ⟨gmono, gout, gnd, gsnd⟩ := ih (processCategory c seen (resp c)).2
    exact comp_good fmono fout fnd fsnd gmono gout gnd gsnd

/-- Any run of consecutive poll cycles satisfies the seen-set bundle. -/
theorem rcycles_good : ∀ (cycles : List (String → CategoryResponse)) (seen : List String),
    (∀ u ∈ seen, u ∈ (runCycles seen cycles).2) ∧
    (∀ a ∈ (runCycles seen cycles).1,
        a.url ∈ (runCycles seen cycles).2 ∧ a.url ∉ seen ∧ a.url ≠ "") ∧
    ((runCycles seen cycles).1.map Article.url).Nodup ∧
    (seen.Nodup → (runCycles seen cycles).2.Nodup) := by
  intro cycles
  induction cycles with
  | nil =>
    intro seen
    refine ⟨fun u hu => hu, ?_, ?_, fun h => h⟩ <;> simp [runCycles]
  | cons r rs ih =>
    intro seen
    have he : runCycles seen (r :: rs)
        = ((runCycle seen r).1 ++ (runCycles (runCycle seen r).2 rs).1,
           (runCycles (runCycle seen r).2 rs).2) := by
      simp only [runCycles]
    rw [he]
    obtain ⟨fmono, fout, fnd, fsnd⟩ := rcats_good r CATEGORIES seen
    obtain ⟨gmono, gout, gnd, gsnd⟩ := ih (runCycle seen r).2
    exact comp_good fmono fout fnd fsnd gmono gout gnd gsnd

/-- Every article emitted by the per-item loop is built by mkArticle from
one of the incoming items. -/
theorem pa_src (cat : String) : ∀ (items : List RawArticle) (seen : List String) (a : Article),
    a ∈ (processArticles cat seen items).1 → ∃ raw ∈ items, a = mkArticle cat raw := by
  intro items
  induction items with
  | nil => intro seen a ha; simp [processArticles] at ha
  | cons b rest ih =>
    intro seen a ha
    by_cases hc : b.url ∈ seen ∨ b.url = ""
    · rw [show processArticles cat seen (b :: rest) = processArticles cat seen rest by
        simp only [processArticles]; rw [if_pos hc]] at ha
      obtain ⟨raw, hr, he⟩ := ih seen a ha
      exact ⟨raw, List.mem_cons_of_mem _ hr, he⟩
    · rw [show processArticles cat seen (b :: rest)
          = (mkArticle cat b :: (processArticles cat (b.url :: seen) rest).1,
             (processArticles cat (b.url :: seen) rest).2) by
        simp only [processArticles]; rw [if_neg hc]] at ha
      rcases List.mem_cons.mp ha with rfl | ha
      · exact ⟨b, List.mem_cons_self _ _, rfl⟩
      · obtain ⟨raw, hr, he⟩ := ih (b.url :: seen) a ha
        exact ⟨raw, List.mem_cons_of_mem _ hr, he⟩

/-- Every article emitted for one category carries that category and stems
from an ok payload of that category. -/
theorem pc_src (cat : String) (r : CategoryResponse) (seen : List String) (a : Article)
    (ha : a ∈ (processCategory cat seen r).1) :
    ∃ status items, r = CategoryResponse.payload status items ∧ status = "ok"
      ∧ ∃ raw ∈ items, a = mkArticle cat raw := by
  cases r with
  | payload status arts =>
    by_cases hs : status = "ok"
    · rw [show processCategory cat seen (CategoryResponse.payload status arts)
          = processArticles cat seen arts by simp only [processCategory]; rw [if_pos hs]] at ha
      exact ⟨status, arts, rfl, hs, pa_src cat arts seen a ha⟩
    · rw [show processCategory cat seen (CategoryResponse.payload status arts)
          = ([], seen) by simp only [processCategory]; rw [if_neg hs]] at ha
      simp at ha
  | timeout => simp [processCategory] at ha
  | transportError => simp [processCategory] at ha
  | malformed => simp [processCategory] at ha

/-- Provenance through the category loop of one cycle. -/
theorem rcats_src (resp : String → CategoryResponse) : ∀ (cats : List String) (seen : List String) (a : Article),
    a ∈ (runCategories resp seen cats).1 →
    ∃ c ∈ cats, ∃ status items, resp c = CategoryResponse.payload status items ∧ status = "ok"
      ∧ ∃ raw ∈ items, a = mkArticle c raw := by
  intro cats
  induction cats with
  | nil => intro seen a ha; simp [runCategories] at ha
  | cons c cs ih =>
    intro seen a ha
    rw [show runCategories resp seen (c :: cs)
        = ((processCategory c seen (resp c)).1
            ++ (runCategories resp (processCategory c seen (resp c)).2 cs).1,
           (runCategories resp (processCategory c seen (resp c)).2 cs).2) by
      simp only [runCategories]] at ha
    rcases List.mem_append.mp ha with h | h
    · obtain ⟨status, items, h1, h2, h3⟩ := pc_src c (resp c) seen a h
      exact ⟨c, List.mem_cons_self _ _, status, items, h1, h2, h3⟩
    · obtain ⟨c2, hc2, rest⟩ := ih (processCategory c seen (resp c)).2 a h
      exact ⟨c2, List.mem_cons_of_mem _ hc2, rest⟩

/-- Provenance through a whole run: every emitted article comes from an ok
payload of some cycle under one of the configured categories, built by
mkArticle. -/
theorem rcycles_src : ∀ (cycles : List (String → CategoryResponse)) (seen : List String) (a : Article),
    a ∈ (runCycles seen cycles).1 →
    ∃ resp ∈ cycles, ∃ c ∈ CATEGORIES, ∃ status items,
      resp c = CategoryResponse.payload status items ∧ status = "ok"
      ∧ ∃ raw ∈ items, a = mkArticle c raw := by
  intro cycles
  induction cycles with
  | nil => intro seen a ha; simp [runCycles] at ha
  | cons r rs ih =>
    intro seen a ha
    rw [show runCycles seen (r :: rs)
        = ((runCycle seen r).1 ++ (runCycles (runCycle seen r).2 rs).1,
           (runCycles (runCycle seen r).2 rs).2) by simp only [runCycles]] at ha
    rcases List.mem_append.mp ha with h | h
    · obtain ⟨c, hc, rest⟩ := rcats_src r CATEGORIES seen a h
      exact ⟨r, List.mem_cons_self _ _, c, hc, rest⟩
    · obtain ⟨resp, hresp, rest⟩ := ih (runCycle seen r).2 a h
      exact ⟨resp, List.mem_cons_of_mem _ hresp, rest⟩

/-- A skippable per-category failure emits nothing and leaves the seen set
unchanged. -/
theorem pc_fail (cat : String) (seen : List String) (r : CategoryResponse)
    (h : isTransientFailure r = true) : processCategory cat seen r = ([], seen) := by
  cases r with
  | payload status arts =>
    have hs : status ≠ "ok" := by simpa [isTransientFailure] using h
    simp only [processCategory]
    rw [if_neg hs]
  | timeout => rfl
  | transportError => rfl
  | malformed => rfl

/-- One poll cycle unfolded over the two configured categories in order. -/
theorem runCycle_eq (seen : List String) (resp : String → CategoryResponse) :
    runCycle seen resp
      = ((processCategory "technology" seen (resp "technology")).1
          ++ (processCategory "business"
                (processCategory "technology" seen (resp "technology")).2 (resp "business")).1,
         (processCategory "business"
            (processCategory "technology" seen (resp "technology")).2 (resp "business")).2) := by
  simp [runCycle, CATEGORIES, runCategories]

/-- How many emitted articles of the per-item loop carry a given non-empty
URL: exactly one when the URL is fresh and present among the items, none
otherwise. -/
theorem pa_countP (cat : String) (u : String) (hu : u ≠ "") :
    ∀ (items : List RawArticle) (seen : List String),
    (processArticles cat seen items).1.countP (fun a => a.url == u)
      = if u ∉ seen ∧ u ∈ items.map RawArticle.url then 1 else 0 := by
  intro items
  induction items with
  | nil => intro seen; simp [processArticles]
  | cons a rest ih =>
    intro seen
    by_cases hc : a.url ∈ seen ∨ a.url = ""
    · rw [show processArticles cat seen (a :: rest) = processArticles cat seen rest by
        simp only [processArticles]; rw [if_pos hc]]
      rw [ih seen]
      by_cases hau : a.url = u
      · rcases hc with hc | hc
        · have hus : u ∈ seen := hau ▸ hc
          rw [if_neg (by rintro ⟨h1, _⟩; exact h1 hus),
            if_neg (by rintro ⟨h1, _⟩; exact h1 hus)]
        · exact absurd (hau ▸ hc) hu
      · have hiff : (u ∈ List.map RawArticle.url (a :: rest)) ↔ u ∈ List.map RawArticle.url rest := by
          simp only [List.map_cons, List.mem_cons]
          constructor
          · rintro (h | h)
            · exact absurd h.symm hau
            · exact h
          · exact Or.inr
        simp only [hiff]
    · push_neg at hc
      obtain ⟨hnm, hne⟩ := hc
      rw [show processArticles cat seen (a :: rest)
          = (mkArticle cat a :: (processArticles cat (a.url :: seen) rest).1,
             (processArticles cat (a.url :: seen) rest).2) by
        simp only [processArticles]; rw [if_neg (by push_neg; exact ⟨hnm, hne⟩)]]
      rw [List.countP_cons, ih (a.url :: seen)]
      by_cases hau : a.url = u
      · have hps : ((mkArticle cat a).url == u) = true := beq_iff_eq.mpr hau
        rw [hps, if_pos rfl]
        have hc0 : ¬(u ∉ (a.url :: seen) ∧ u ∈ List.map RawArticle.url rest) := by
          rintro ⟨h2, _⟩
          exact h2 (List.mem_cons.mpr (Or.inl hau.symm))
        rw [if_neg hc0, Nat.zero_add,
          if_pos ⟨hau ▸ hnm, List.mem_cons.mpr (Or.inl hau.symm)⟩]
      · have hps : ((mkArticle cat a).url == u) = false := beq_eq_false_iff_ne.mpr hau
        rw [hps, if_neg Bool.false_ne_true, Nat.add_zero]
        have hiff : (u ∉ (a.url :: seen) ∧ u ∈ List.map RawArticle.url rest)
            ↔ (u ∉ seen ∧ u ∈ List.map RawArticle.url (a :: rest)) := by
          simp only [List.mem_cons, List.map_cons]
          constructor
          · rintro ⟨h2, h3⟩
            exact ⟨fun hmem => h2 (Or.inr hmem), Or.inr h3⟩
          · rintro ⟨h2, h3⟩
            refine ⟨fun hmem => ?_, ?_⟩
            · rcases hmem with hmem | hmem
              · exact hau hmem.symm
              · exact h2 hmem
            · rcases h3 with h3 | h3
              · exact absurd h3.symm hau
              · exact h3
        simp only [hiff]

/-- Membership in the seen set after the per-item loop, for a non-empty URL:
the old members plus the URLs occurring among the items. -/
theorem pa_seen_iff (cat : String) (u : String) (hu : u ≠ "") :
    ∀ (items : List RawArticle) (seen : List String),
    u ∈ (processArticles cat seen items).2 ↔ (u ∈ seen ∨ u ∈ items.map RawArticle.url) := by
  intro items
  induction items with
  | nil => intro seen; simp [processArticles]
  | cons a rest ih =>
    intro seen
    by_cases hc : a.url ∈ seen ∨ a.url = ""
    · rw [show processArticles cat seen (a :: rest) = processArticles cat seen rest by
        simp only [processArticles]; rw [if_pos hc]]
      rw [ih seen]
      simp only [List.map_cons, List.mem_cons]
      constructor
      · rintro (h | h)
        · exact Or.inl h
        · exact Or.inr (Or.inr h)
      · rintro (h | h | h)
        · exact Or.inl h
        · rcases hc with hc | hc
          · exact Or.inl (h ▸ hc)
          · exact absurd (h ▸ hc) hu
        · exact Or.inr h
    · push_neg at hc
      obtain ⟨hnm, hne⟩ := hc
      rw [show processArticles cat seen (a :: rest)
          = (mkArticle cat a :: (processArticles cat (a.url :: seen) rest).1,
             (processArticles cat (a.url :: seen) rest).2) by
        simp only [processArticles]; rw [if_neg (by push_neg; exact ⟨hnm, hne⟩)]]
      rw [ih (a.url :: seen)]
      simp only [List.mem_cons, List.map_cons]
      tauto

/-- startsWithChars decides the existence of a completing suffix. -/
theorem startsWithChars_iff : ∀ (n h : List Char), startsWithChars n h = true ↔ ∃ t, h = n ++ t := by
  intro n
  induction n with
  | nil =>
    intro h
    simp [startsWithChars]
  | cons c n ih =>
    intro h
    cases h with
    | nil =>
      simp [startsWithChars]
    | cons b hs =>
      simp only [startsWithChars, Bool.and_eq_true, beq_iff_eq]
      constructor
      · rintro ⟨hcb, hsw⟩
        subst hcb
        obtain ⟨t, rfl⟩ := (ih hs).mp hsw
        exact ⟨t, rfl⟩
      · rintro ⟨t, ht⟩
        injection ht with h1 h2
        exact ⟨h1.symm, (ih hs).mpr ⟨t, h2⟩⟩

/-- hasSubstr decides contiguous containment. -/
theorem hasSubstr_iff : ∀ (h n : List Char), hasSubstr n h = true ↔ occursIn n h := by
  intro h
  induction h with
  | nil =>
    intro n
    cases n with
    | nil =>
      constructor
      · intro _; exact ⟨[], [], rfl⟩
      · intro _; rfl
    | cons c n =>
      constructor
      · intro hx; simp [hasSubstr] at hx
      · rintro ⟨s, t, hst⟩
        have h1 : s ++ c :: n = [] := (List.append_eq_nil.mp hst.symm).1
        have h2 : c :: n = [] := (List.append_eq_nil.mp h1).2
        simp at h2
  | cons c rest ih =>
    intro n
    simp only [hasSubstr, Bool.or_eq_true]
    rw [startsWithChars_iff, ih]
    constructor
    · rintro (⟨t, ht⟩ | ⟨s, t, hst⟩)
      · exact ⟨[], t, by simp only [List.nil_append]; exact ht⟩
      · exact ⟨c :: s, t, by simp [hst]⟩
    · rintro ⟨s, t, hst⟩
      cases s with
      | nil => exact Or.inl ⟨t, by simpa using hst⟩
      | cons b s =>
        injection hst with h1 h2
        exact Or.inr ⟨s, t, h2⟩

/-- C9: the credential guard classifies a key as a placeholder exactly when
its lowercase form contains the four characters of the marker word
contiguously; consequently a syntactically plausible key that merely
contains that word, here a concrete thirteen-character key, is rejected by
the connector as a fatal configuration error even though a credential is
set. -/
theorem placeholder_iff_contains_marker :
    (∀ k : String, isPlaceholder k = true ↔ occursIn "your".toList (k.toList.map Char.toLower))
    ∧ isPlaceholder "q7xYourz3k1mW" = true
    ∧ ("q7xYourz3k1mW" : String) ≠ ""
    ∧ (∀ cycles, fetchNewsStream (some "q7xYourz3k1mW") cycles = Except.error NEWS_KEY_ERROR) := by
  refine ⟨fun k => hasSubstr_iff _ _, by decide, by decide, ?_⟩
  intro cycles
  have hk : keyMissingOrPlaceholder (some "q7xYourz3k1mW") = true := by decide
  simp [fetchNewsStream, hk]

/-- C7: a missing, empty or placeholder credential is rejected by the guard
that runs before the polling loop, so the connector produces no stream; the
identical guard in the serving entry point likewise fails before the
process reaches the serving state. -/
theorem missing_credential_fatal (key : Option String)
    (cycles : List (String → CategoryResponse))
    (h : keyMissingOrPlaceholder key = true) :
    fetchNewsStream key cycles = Except.error NEWS_KEY_ERROR
    ∧ (∀ gk, keyMissingOrPlaceholder gk = true → mainStartup gk = Except.error GEMINI_KEY_ERROR) := by
  constructor
  · simp [fetchNewsStream, h]
  · intro gk hgk
    simp [mainStartup, hgk]

theorem missing_credential_fatal_witness :
    keyMissingOrPlaceholder none = true
    ∧ (fetchNewsStream none [] = Except.error NEWS_KEY_ERROR
        ∧ (∀ gk, keyMissingOrPlaceholder gk = true → mainStartup gk = Except.error GEMINI_KEY_ERROR)) :=
  ⟨by decide, missing_credential_fatal none [] (by decide)⟩

/-- C8: an unexpected exception inside one poll cycle is answered by the
caught-and-pause step with exactly the configured poll interval of 60
seconds, the loop then resumes with the remaining iterations unchanged, and
the only event that stops the loop is a keyboard interrupt — never this
exception class. -/
theorem unexpected_error_caught_and_resumed :
    loopStep CycleEvent.unexpectedError = StepAction.continueAfterPause POLL_INTERVAL
    ∧ POLL_INTERVAL = 60
    ∧ (∀ seen es, runLoop seen (CycleEvent.unexpectedError :: es) = runLoop seen es)
    ∧ (∀ e, loopStep e = StepAction.stopLoop ↔ e = CycleEvent.keyboardInterrupt) := by
  refine ⟨rfl, rfl, fun seen es => rfl, ?_⟩
  intro e
  cases e with
  | normal resp =>
    constructor
    · intro h; exact absurd h (by simp [loopStep, POLL_INTERVAL])
    · intro h; exact absurd h (by simp)
  | unexpectedError =>
    constructor
    · intro h; exact absurd h (by simp [loopStep, POLL_INTERVAL])
    · intro h; exact absurd h (by simp)
  | keyboardInterrupt => exact ⟨fun _ => rfl, fun _ => rfl⟩

/-- C5: for every similarity function, query vector and k, search is total
and returns the empty sequence on an empty index (never an error), returns
exactly min of k and the index size entries (hence never more), and its
result is sorted by non-increasing similarity, with the scored view sorted
under the tie-breaking order that prefers the earlier insertion index on
equal similarity. -/
theorem search_topk_sorted (sim : List Rat → List Rat → Rat) (entries : List IndexEntry)
    (v : List Rat) (k : Nat) :
    search sim [] v k = []
    ∧ (search sim entries v k).length = min k entries.length
    ∧ (searchScored sim entries v k).Pairwise scoreRank
    ∧ (search sim entries v k).Pairwise (fun x y => y.2 ≤ x.2) := by
  have hp : (searchScored sim entries v k).Pairwise scoreRank := by
    have hs := List.sorted_insertionSort scoreRank
      (entries.enum.map (fun p => ((p.1, sim v p.2.embedding), p.2)))
    exact List.Pairwise.sublist (List.take_sublist k _) hs
  refine ⟨by simp [search, searchScored], ?_, hp, ?_⟩
  · simp only [search, searchScored, List.length_map, List.length_take]
    rw [(List.perm_insertionSort scoreRank _).length_eq, List.length_map, List.enum_length]
  · exact List.Pairwise.map _ (fun a b hab => by
      rcases hab with h | ⟨h, _⟩
      · exact h.le
      · exact h.ge) hp

/-- C1: whenever the Vector Index search for a question comes back empty —
in particular against an empty index — the answer is the fixed fallback
text with zero references and zero retrieved documents, and the result does
not depend on the language model, which is therefore never invoked with an
empty context. -/
theorem answer_empty_retrieval_is_fallback
    (sim : List Rat → List Rat → Rat) (embedFn : String → List Rat)
    (llm llm2 : String → String → String) (entries : List IndexEntry) (q : String)
    (h : search sim entries (embedFn q) 5 = []) :
    answer sim embedFn llm entries q = FALLBACK_ANSWER
    ∧ FALLBACK_ANSWER.text = "no recent news on this topic"
    ∧ FALLBACK_ANSWER.references = []
    ∧ FALLBACK_ANSWER.retrievedDocs = 0
    ∧ answer sim embedFn llm entries q = answer sim embedFn llm2 entries q
    ∧ search sim [] (embedFn q) 5 = [] := by
  have ha : ∀ l : String → String → String, answer sim embedFn l entries q = FALLBACK_ANSWER := by
    intro l
    simp [answer, h]
  exact ⟨ha llm, rfl, rfl, rfl, (ha llm).trans (ha llm2).symm, by simp [search, searchScored]⟩

theorem answer_empty_retrieval_is_fallback_witness :
    search (fun _ _ => (0 : Rat)) ([] : List IndexEntry) ((fun _ => ([] : List Rat)) "any") 5 = []
    ∧ answer (fun _ _ => (0 : Rat)) (fun _ => ([] : List Rat)) (fun _ _ => "a") [] "any" = FALLBACK_ANSWER :=
  ⟨by simp [search, searchScored],
   (answer_empty_retrieval_is_fallback (fun _ _ => (0 : Rat)) (fun _ => ([] : List Rat))
      (fun _ _ => "a") (fun _ _ => "b") [] "any" (by simp [search, searchScored])).1⟩

/-- A string with a non-empty left part stays non-empty under append. -/
theorem string_append_ne_empty (s t : String) (hs : s ≠ "") : s ++ t ≠ "" := by
  intro h
  apply hs
  have hd : s.data ++ t.data = [] := congrArg String.data h
  have hsd : s.data = [] := (List.append_eq_nil.mp hd).1
  cases s with
  | mk d => exact congrArg String.mk hsd

/-- C2: across any number of poll cycles from any duplicate-free initial
seen set, the emitted article URLs are pairwise distinct, so each article
identity is emitted at most once over the process lifetime; every emitted
URL is recorded in the final seen set and was absent from the initial one
(the identity is added before the article is emitted), the seen set never
loses a member, and it stays duplicate-free, so an identity is added at
most once. -/
theorem dedup_idempotent_invariant (cycles : List (String → CategoryResponse))
    (seen : List String) (h : seen.Nodup) :
    ((runCycles seen cycles).1.map Article.url).Nodup
    ∧ (∀ a ∈ (runCycles seen cycles).1,
        a.url ∈ (runCycles seen cycles).2 ∧ a.url ∉ seen)
    ∧ (∀ u ∈ seen, u ∈ (runCycles seen cycles).2)
    ∧ (runCycles seen cycles).2.Nodup := by
  obtain ⟨mono, out, nd, snd⟩ := rcycles_good cycles seen
  exact ⟨nd, fun a ha => ⟨(out a ha).1, (out a ha).2.1⟩, mono, snd h⟩

theorem dedup_idempotent_invariant_witness :
    (["https://old.example/seen"] : List String).Nodup
    ∧ ((runCycles ["https://old.example/seen"] [goodResp, goodResp]).1.map Article.url).Nodup :=
  ⟨by decide,
   (dedup_idempotent_invariant [goodResp, goodResp] ["https://old.example/seen"] (by decide)).1⟩

/-- C4: when the response for a category is any skippable per-category
failure (timeout, transport error, malformed response, or non-ok provider
status), the poll cycle emits zero articles of that category, the remaining
configured category is still processed exactly as it would be alone (the
loop proceeds to the next category), and the loop step after a cycle is the
fixed poll-interval pause followed by the next poll, never termination. -/
theorem transient_failure_skips_category (seen : List String)
    (resp : String → CategoryResponse) (c : String)
    (h : isTransientFailure (resp c) = true) :
    (∀ a ∈ (runCycle seen resp).1, a.category ≠ c)
    ∧ (c = "technology" →
        (runCycle seen resp).1 = (processCategory "business" seen (resp "business")).1)
    ∧ (c = "business" →
        (runCycle seen resp).1 = (processCategory "technology" seen (resp "technology")).1)
    ∧ loopStep (CycleEvent.normal resp) = StepAction.continueAfterPause POLL_INTERVAL := by
  refine ⟨?_, ?_, ?_, rfl⟩
  · intro a ha hcat
    obtain ⟨c2, hc2, status, items, hre, hok, raw, hraw, hmk⟩ :=
      rcats_src resp CATEGORIES seen a ha
    have h2 : a.category = c2 := by rw [hmk]; rfl
    have hceq : c2 = c := h2.symm.trans hcat
    rw [hceq] at hre
    rw [hre, hok] at h
    simp [isTransientFailure] at h
  · intro hc
    subst hc
    rw [runCycle_eq, pc_fail "technology" seen (resp "technology") h]
    simp
  · intro hc
    subst hc
    rw [runCycle_eq, pc_fail "business" _ (resp "business") h]
    simp

theorem transient_failure_skips_category_witness :
    isTransientFailure ((fun _ => CategoryResponse.timeout) "technology") = true
    ∧ (∀ a ∈ (runCycle [] (fun _ => CategoryResponse.timeout)).1, a.category ≠ "technology") :=
  ⟨rfl, (transient_failure_skips_category [] (fun _ => CategoryResponse.timeout) "technology" rfl).1⟩

/-- C6: an accepted provider item (fresh, non-empty URL) is emitted as the
next article of the per-item loop, and its text is the title joined with
the description (separated by a dot and a space, as the code's format
string produces) when the description is non-empty, and the title alone
when the description is empty. -/
theorem emitted_text_from_title_description (cat : String) (a : RawArticle)
    (seen : List String) (rest : List RawArticle)
    (hnm : a.url ∉ seen) (hne : a.url ≠ "") :
    (mkArticle cat a).text
      = (if a.description = "" then a.title else a.title ++ ". " ++ a.description)
    ∧ (processArticles cat seen (a :: rest)).1.head? = some (mkArticle cat a) := by
  constructor
  · rfl
  · rw [show processArticles cat seen (a :: rest)
        = (mkArticle cat a :: (processArticles cat (a.url :: seen) rest).1,
           (processArticles cat (a.url :: seen) rest).2) by
      simp only [processArticles]; rw [if_neg (by push_neg; exact ⟨hnm, hne⟩)]]
    rfl

theorem emitted_text_from_title_description_witness :
    (rawSample.url ∉ ([] : List String) ∧ rawSample.url ≠ "")
    ∧ (mkArticle "technology" rawSample).text
        = (if rawSample.description = "" then rawSample.title
           else rawSample.title ++ ". " ++ rawSample.description) :=
  ⟨⟨by decide, by decide⟩,
   (emitted_text_from_title_description "technology" rawSample [] [] (by decide) (by decide)).1⟩

/-- C3 refutation: one cycle whose provider items carry a valid URL but an
empty title, description, timestamp and an explicitly empty source name
emits an article whose text, date and source are all empty, so it is not
the case that every emitted article has non-empty text, date and source. -/
theorem schema_completeness_counterexample :
    (runCycle [] c3Resp).1
      = [{ text := "", url := "https://example.com/empty", date := "", source := "",
           category := "technology" }]
    ∧ ¬(∀ a ∈ (runCycle [] c3Resp).1, a.text ≠ "" ∧ a.date ≠ "" ∧ a.source ≠ "") := by
  have he : (runCycle [] c3Resp).1
      = [{ text := "", url := "https://example.com/empty", date := "", source := "",
           category := "technology" }] := by decide
  refine ⟨he, ?_⟩
  intro hall
  have hx := hall _ (by rw [he]; exact List.mem_singleton.mpr rfl)
  exact hx.1 rfl

/-- C3 (amended): every article emitted across any poll cycles
unconditionally has a non-empty URL and a category from the configured set;
and provided every item of every ok payload carries a non-empty title, a
non-empty publication timestamp and no explicitly empty source name, every
emitted article also has non-empty text, date and source. -/
theorem schema_completeness_amended (cycles : List (String → CategoryResponse))
    (seen : List String) :
    ∀ a ∈ (runCycles seen cycles).1,
      a.url ≠ "" ∧ a.category ∈ CATEGORIES
      ∧ (okPayloadsWellFormed cycles → a.text ≠ "" ∧ a.date ≠ "" ∧ a.source ≠ "") := by
  intro a ha
  obtain ⟨_, out, _, _⟩ := rcycles_good cycles seen
  obtain ⟨resp, hresp, c, hc, status, items, hre, hok, raw, hraw, hmk⟩ :=
    rcycles_src cycles seen a ha
  subst hmk
  refine ⟨(out _ ha).2.2, hc, ?_⟩
  intro hgood
  obtain ⟨ht, hp, hsn⟩ := hgood resp hresp c status items hre raw hraw
  refine ⟨?_, hp, ?_⟩
  · show mkText raw.title raw.description ≠ ""
    unfold mkText
    by_cases hd : raw.description = ""
    · rw [if_pos hd]; exact ht
    · rw [if_neg hd]
      exact string_append_ne_empty _ _ (string_append_ne_empty _ _ ht)
  · show raw.sourceName.getD "Unknown" ≠ ""
    cases hsrc : raw.sourceName with
    | none => decide
    | some s =>
      simp only [Option.getD_some]
      intro hemp
      exact hsn (by rw [hsrc, hemp])

theorem schema_completeness_amended_witness :
    okPayloadsWellFormed [goodResp]
    ∧ (∀ a ∈ (runCycles [] [goodResp]).1,
        a.url ≠ "" ∧ a.category ∈ CATEGORIES
        ∧ (okPayloadsWellFormed [goodResp] → a.text ≠ "" ∧ a.date ≠ "" ∧ a.source ≠ "")) := by
  have hgood : okPayloadsWellFormed [goodResp] := by
    intro resp hresp c status items hre raw hraw
    rw [List.mem_singleton] at hresp
    subst hresp
    have hx : CategoryResponse.payload "ok" [rawSample] = CategoryResponse.payload status items := hre
    injection hx with h1 h2
    subst h2
    rw [List.mem_singleton] at hraw
    subst hraw
    exact ⟨by decide, by decide, by decide⟩
  exact ⟨hgood, schema_completeness_amended [goodResp] []⟩

/-- C10: deduplication by URL applies across categories: when the same
fresh non-empty URL is offered under both configured categories of one
cycle, exactly one article with that URL is emitted and it carries the
first configured category, technology, the categories being polled in the
fixed order technology then business; and once a URL is in the seen set,
the per-item loop emits nothing with that URL in any later cycle. -/
theorem cross_category_dedup_first_wins (seen : List String) (u : String)
    (resp : String → CategoryResponse) (l1 l2 : List RawArticle)
    (h1 : resp "technology" = CategoryResponse.payload "ok" l1)
    (h2 : resp "business" = CategoryResponse.payload "ok" l2)
    (hu : u ≠ "") (hs : u ∉ seen)
    (m1 : u ∈ l1.map RawArticle.url) (m2 : u ∈ l2.map RawArticle.url) :
    (runCycle seen resp).1.countP (fun a => a.url == u) = 1
    ∧ (∀ a ∈ (runCycle seen resp).1, a.url = u → a.category = "technology")
    ∧ CATEGORIES = ["technology", "business"]
    ∧ (∀ (cat : String) (seen2 : List String) (items : List RawArticle), u ∈ seen2 →
        (processArticles cat seen2 items).1.countP (fun a => a.url == u) = 0) := by
  have hcount0 : ∀ (cat : String) (seen2 : List String) (items : List RawArticle), u ∈ seen2 →
      (processArticles cat seen2 items).1.countP (fun a => a.url == u) = 0 := by
    intro cat seen2 items hmem
    rw [pa_countP cat u hu items seen2, if_neg (by rintro ⟨hx, _⟩; exact hx hmem)]
  have hseen1 : u ∈ (processArticles "technology" seen l1).2 :=
    (pa_seen_iff "technology" u hu l1 seen).mpr (Or.inr m1)
  have e1 : processCategory "technology" seen (resp "technology")
      = processArticles "technology" seen l1 := by
    rw [h1]; simp [processCategory]
  have e2 : ∀ s2, processCategory "business" s2 (resp "business")
      = processArticles "business" s2 l2 := by
    intro s2; rw [h2]; simp [processCategory]
  refine ⟨?_, ?_, rfl, hcount0⟩
  · rw [runCycle_eq, e1, e2, List.countP_append, pa_countP "technology" u hu l1 seen,
      if_pos ⟨hs, m1⟩, hcount0 "business" _ l2 hseen1]
  · intro a ha hurl
    rw [runCycle_eq, e1, e2] at ha
    rcases List.mem_append.mp ha with hmem | hmem
    · obtain ⟨raw, _, hmk⟩ := pa_src "technology" l1 seen a hmem
      rw [hmk]; rfl
    · have h0 := hcount0 "business" _ l2 hseen1
      have hnp := List.countP_eq_zero.mp h0 a hmem
      exact absurd (beq_iff_eq.mpr hurl) hnp

theorem cross_category_dedup_first_wins_witness :
    (c10Resp "technology" = CategoryResponse.payload "ok" [rawSample]
      ∧ c10Resp "business" = CategoryResponse.payload "ok" [rawSampleB]
      ∧ ("https://x.com/a" : String) ≠ ""
      ∧ "https://x.com/a" ∉ ([] : List String)
      ∧ "https://x.com/a" ∈ [rawSample].map RawArticle.url
      ∧ "https://x.com/a" ∈ [rawSampleB].map RawArticle.url)
    ∧ (runCycle [] c10Resp).1.countP (fun a => a.url == "https://x.com/a") = 1 :=
  ⟨⟨by decide, by decide, by decide, by decide, by decide, by decide⟩,
   (cross_category_dedup_first_wins [] "https://x.com/a" c10Resp [rawSample] [rawSampleB]
      (by decide) (by decide) (by decide) (by decide) (by decide) (by decide)).1⟩

end NewsRag
